import Mathlib

/-!
Verification development for the lineage-graph core of the mlmdquery
repository (graph construction in src/graph.rs and the two discovery
commands in src/derived.rs and src/io.rs).

Modelling conventions:
- Machine integers (i32 ids, millisecond timestamps) are modelled as Int;
  no arithmetic overflowing i32 occurs in the modelled code paths.
- The external metadata store (the mlmd crate) is modelled as finite lists
  of records; the query combinators used by the code (get_artifacts().id,
  get_executions().id, get_events().artifact / .execution,
  get_artifact_types().ids, get_execution_types().ids) are modelled as
  list filters over those records.
- HashMap<NodeId, Node> is modelled as an association list to which the
  loop appends; the loop inserts a key only after a negative contains_key
  check, so append agrees with HashMap insert here.  HashSet<Edge> is
  modelled as a list with membership-guarded insertion.  BTreeMap is
  modelled as a key-sorted association list with replace-on-equal insert.
- Fallible async store calls are modelled as Except String results; the
  anyhow::ensure! failures of get_node become Except.error with the same
  message text.
-/

namespace Mlmdquery

/-- Event types of the mlmd metadata model (mlmd::metadata::EventType). -/
inductive EventType where
  | unknown
  | declaredOutput
  | declaredInput
  | input
  | output
  | internalInput
  | internalOutput
deriving DecidableEq, Repr

/-- One step of an event path (mlmd::metadata::EventStep): an integer index
or a string key. -/
inductive EventStep where
  | index (i : Int)
  | key (k : String)
deriving DecidableEq, Repr

/-- An event record (mlmd::metadata::Event): a typed link between one
artifact and one execution.  Equality derives componentwise, matching the
derived PartialEq/Eq/Hash used for HashSet membership in the code. -/
structure Event where
  artifact_id : Int
  execution_id : Int
  path : List EventStep
  ty : EventType
  create_time_since_epoch : Int
deriving DecidableEq, Repr

/-- An artifact record, reduced to the fields the graph core reads
(id and type_id; name kept as representative payload). -/
structure Artifact where
  id : Int
  type_id : Int
  name : Option String
deriving DecidableEq, Repr

/-- An execution record, reduced to the fields the graph core reads. -/
structure Execution where
  id : Int
  type_id : Int
  name : Option String
deriving DecidableEq, Repr

/-- An artifact type record (id and name). -/
structure ArtifactType where
  id : Int
  name : String
deriving DecidableEq, Repr

/-- An execution type record (id and name). -/
structure ExecutionType where
  id : Int
  name : String
deriving DecidableEq, Repr

/-- NodeId from src/graph.rs: a tagged union over artifact and execution
ids, with value equality. -/
inductive NodeId where
  | artifact (id : Int)
  | execution (id : Int)
deriving DecidableEq, Repr

/-- Node from src/graph.rs: owns one artifact or execution record. -/
inductive Node where
  | artifact (a : Artifact)
  | execution (e : Execution)
deriving DecidableEq, Repr

/-- Node::id from src/graph.rs. -/
def Node.id : Node → NodeId
  | Node.artifact x => NodeId.artifact x.id
  | Node.execution x => NodeId.execution x.id

/-- The type_id match inside Node::color from src/graph.rs. -/
def Node.type_id : Node → Int
  | Node.artifact x => x.type_id
  | Node.execution x => x.type_id

/-- Edge from src/graph.rs: owns exactly one event; derived equality is
full event-tuple equality. -/
structure Edge where
  event : Event
deriving DecidableEq, Repr

/-- The matches! test for input-class event types used by
Edge::from_node and Edge::to_node in src/graph.rs. -/
def isInputClass (ty : EventType) : Bool :=
  match ty with
  | EventType.input => true
  | EventType.declaredInput => true
  | EventType.internalInput => true
  | _ => false

/-- The matches! test for output-class event types used by the filter in
src/derived.rs get_edges. -/
def isOutputClass (ty : EventType) : Bool :=
  match ty with
  | EventType.output => true
  | EventType.declaredOutput => true
  | EventType.internalOutput => true
  | _ => false

/-- Edge::from_node from src/graph.rs. -/
def Edge.from_node (e : Edge) : NodeId :=
  if isInputClass e.event.ty then NodeId.artifact e.event.artifact_id
  else NodeId.execution e.event.execution_id

/-- Edge::to_node from src/graph.rs. -/
def Edge.to_node (e : Edge) : NodeId :=
  if isInputClass e.event.ty then NodeId.execution e.event.execution_id
  else NodeId.artifact e.event.artifact_id

/-- The metadata store, modelled as finite lists of records. -/
structure MetadataStore where
  artifacts : List Artifact
  executions : List Execution
  events : List Event
  artifact_types : List ArtifactType
  execution_types : List ExecutionType
deriving Repr

/-- store.get_artifacts().id(id).execute(): all artifact records with the
given id. -/
def MetadataStore.artifacts_by_id (s : MetadataStore) (id : Int) : List Artifact :=
  s.artifacts.filter (fun a => a.id == id)

/-- store.get_executions().id(id).execute(). -/
def MetadataStore.executions_by_id (s : MetadataStore) (id : Int) : List Execution :=
  s.executions.filter (fun e => e.id == id)

/-- store.get_events().artifact(id).execute(): all events touching the
given artifact. -/
def MetadataStore.events_by_artifact (s : MetadataStore) (id : Int) : List Event :=
  s.events.filter (fun e => e.artifact_id == id)

/-- store.get_events().execution(id).execute(). -/
def MetadataStore.events_by_execution (s : MetadataStore) (id : Int) : List Event :=
  s.events.filter (fun e => e.execution_id == id)

/-- get_node, the shared helper of src/derived.rs and src/io.rs: resolve a
NodeId to its record, failing unless exactly one record matches. -/
def get_node (store : MetadataStore) (id : NodeId) : Except String Node :=
  match id with
  | NodeId.artifact aid =>
    match store.artifacts_by_id aid with
    | [a] => Except.ok (Node.artifact a)
    | _ => Except.error ("No such artifact: " ++ toString aid)
  | NodeId.execution eid =>
    match store.executions_by_id eid with
    | [e] => Except.ok (Node.execution e)
    | _ => Except.error ("No such execution: " ++ toString eid)

/-- get_edges from src/derived.rs (lineage policy): at an artifact, the
input-class events touching it; at an execution, the output-class events
touching it. -/
def get_edges_derived (store : MetadataStore) (id : NodeId) : List Edge :=
  match id with
  | NodeId.artifact aid =>
    ((store.events_by_artifact aid).filter (fun event => isInputClass event.ty)).map Edge.mk
  | NodeId.execution eid =>
    ((store.events_by_execution eid).filter (fun event => isOutputClass event.ty)).map Edge.mk

/-- get_edges from src/io.rs (I/O policy): no edges at an artifact; at an
execution, every event touching it, with no event-type filter. -/
def get_edges_io (store : MetadataStore) (id : NodeId) : List Edge :=
  match id with
  | NodeId.artifact _ => []
  | NodeId.execution eid => (store.events_by_execution eid).map Edge.mk

/-- The node accumulator of the discovery loop (HashMap<NodeId, Node>). -/
abbrev NodeMap := List (NodeId × Node)

/-- nodes.contains_key(&id) in the discovery loop. -/
def keyMem (nodes : NodeMap) (id : NodeId) : Bool :=
  nodes.any (fun p => decide (p.1 = id))

/-- edges.insert(edge) on the HashSet<Edge>: add the edge unless an equal
edge is already present. -/
def insertEdge (edges : List Edge) (e : Edge) : List Edge :=
  if e ∈ edges then edges else edges ++ [e]

/-- The two stack.push calls per discovered edge in the loops of
src/derived.rs and src/io.rs (push from_node, then to_node). -/
def pushEdges (es : List Edge) (stack : List NodeId) : List NodeId :=
  es.foldl (fun s e => e.to_node :: e.from_node :: s) stack

/-- All NodeIds that have at least one record in the store; used only as a
termination measure for the discovery loop. -/
def storeNodeIds (store : MetadataStore) : List NodeId :=
  store.artifacts.map (fun a => NodeId.artifact a.id) ++
    store.executions.map (fun e => NodeId.execution e.id)

/-- Number of store node ids not yet in the node map; the discovery loop
strictly decreases it whenever it inserts a node. -/
def unvisitedCount (store : MetadataStore) (nodes : NodeMap) : Nat :=
  ((storeNodeIds store).filter (fun x => !keyMem nodes x)).length

theorem keyMem_iff (nodes : NodeMap) (id : NodeId) :
    keyMem nodes id = true ↔ ∃ p ∈ nodes, p.1 = id := by
  simp [keyMem, List.any_eq_true]

theorem get_node_ok_mem (store : MetadataStore) (id : NodeId) (node : Node)
    (h : get_node store id = Except.ok node) : id ∈ storeNodeIds store := by
  cases id with
  | artifact aid =>
    simp only [get_node] at h
    split at h
    · next a heq =>
      have ha : a ∈ store.artifacts.filter (fun a => a.id == aid) := by
        rw [show store.artifacts.filter (fun a => a.id == aid) =
              store.artifacts_by_id aid from rfl, heq]
        exact List.mem_singleton.mpr rfl
      have hid : a.id = aid := by
        simpa using List.of_mem_filter ha
      simp only [storeNodeIds, List.mem_append, List.mem_map]
      exact Or.inl ⟨a, List.mem_of_mem_filter ha, by rw [hid]⟩
    · exact absurd h (by simp)
  | execution eid =>
    simp only [get_node] at h
    split at h
    · next e heq =>
      have he : e ∈ store.executions.filter (fun e => e.id == eid) := by
        rw [show store.executions.filter (fun e => e.id == eid) =
              store.executions_by_id eid from rfl, heq]
        exact List.mem_singleton.mpr rfl
      have hid : e.id = eid := by
        simpa using List.of_mem_filter he
      simp only [storeNodeIds, List.mem_append, List.mem_map]
      exact Or.inr ⟨e, List.mem_of_mem_filter he, by rw [hid]⟩
    · exact absurd h (by simp)

theorem length_filter_le_of_imp {α : Type} (p q : α → Bool)
    (himp : ∀ x, q x = true → p x = true) (l : List α) :
    (l.filter q).length ≤ (l.filter p).length := by
  induction l with
  | nil => simp
  | cons b t ih =>
    cases hq : q b with
    | true =>
      rw [List.filter_cons_of_pos hq, List.filter_cons_of_pos (himp b hq)]
      simpa using ih
    | false =>
      rw [List.filter_cons_of_neg (by simp [hq])]
      cases hp : p b with
      | true =>
        rw [List.filter_cons_of_pos hp]
        exact Nat.le_succ_of_le ih
      | false =>
        rw [List.filter_cons_of_neg (by simp [hp])]
        exact ih

theorem length_filter_lt {α : Type} (p q : α → Bool)
    (himp : ∀ x, q x = true → p x = true)
    (a : α) (l : List α) (ha : a ∈ l) (hpa : p a = true) (hqa : q a = false) :
    (l.filter q).length < (l.filter p).length := by
  induction l with
  | nil => cases ha
  | cons b t ih =>
    rcases List.mem_cons.mp ha with rfl | hat
    · rw [List.filter_cons_of_neg (by simp [hqa]), List.filter_cons_of_pos hpa]
      exact Nat.lt_succ_of_le (length_filter_le_of_imp p q himp t)
    · cases hq : q b with
      | true =>
        rw [List.filter_cons_of_pos hq, List.filter_cons_of_pos (himp b hq)]
        simpa using ih hat
      | false =>
        rw [List.filter_cons_of_neg (by simp [hq])]
        cases hp : p b with
        | true =>
          rw [List.filter_cons_of_pos hp]
          exact Nat.lt_succ_of_lt (ih hat)
        | false =>
          rw [List.filter_cons_of_neg (by simp [hp])]
          exact ih hat

theorem keyMem_append_of (nodes : NodeMap) (q : NodeId × Node) (x : NodeId)
    (h : keyMem nodes x = true) : keyMem (nodes ++ [q]) x = true := by
  rw [keyMem_iff] at h ⊢
  obtain ⟨p, hp, he⟩ := h
  exact ⟨p, List.mem_append_left _ hp, he⟩

theorem unvisitedCount_lt (store : MetadataStore) (nodes : NodeMap) (id : NodeId)
    (node : Node) (hmem : id ∈ storeNodeIds store) (hnot : ¬ keyMem nodes id = true) :
    unvisitedCount store (nodes ++ [(id, node)]) < unvisitedCount store nodes := by
  have hnot2 : keyMem nodes id = false := by
    rw [Bool.not_eq_true] at hnot
    exact hnot
  refine length_filter_lt _ _ ?_ id _ hmem ?_ ?_
  · intro x hx
    simp only [Bool.not_eq_true'] at hx ⊢
    by_contra hc
    rw [Bool.not_eq_false] at hc
    rw [keyMem_append_of nodes (id, node) x hc] at hx
    cases hx
  · simp [hnot2]
  · have hin : keyMem (nodes ++ [(id, node)]) id = true := by
      rw [keyMem_iff]
      exact ⟨(id, node), List.mem_append_right _ (List.mem_singleton.mpr rfl), rfl⟩
    simp [hin]

/-- The shared discovery loop of GraphDerivedOpt::graph (src/derived.rs)
and GraphIoOpt::graph (src/io.rs), parameterized by the adjacency policy:
pop an id from the stack; skip it if already in the node map; otherwise
fetch its record (propagating the not-found failure), insert it, then for
each adjacent edge push both endpoints and insert the edge into the set. -/
def traverse (adjacent : MetadataStore → NodeId → List Edge) (store : MetadataStore) :
    List NodeId → NodeMap → List Edge → Except String (NodeMap × List Edge)
  | [], nodes, edges => Except.ok (nodes, edges)
  | id :: stack, nodes, edges =>
    if hvis : keyMem nodes id then
      traverse adjacent store stack nodes edges
    else
      match h : get_node store id with
      | Except.error msg => Except.error msg
      | Except.ok node =>
        let es := adjacent store id
        traverse adjacent store (pushEdges es stack) (nodes ++ [(id, node)])
          (es.foldl insertEdge edges)
termination_by stack nodes _ => (unvisitedCount store nodes, stack.length)
decreasing_by
· apply Prod.Lex.right
  simp
· apply Prod.Lex.left
  exact unvisitedCount_lt store nodes id node (get_node_ok_mem store id node h) hvis

/-- The discovery phase of GraphDerivedOpt::graph: seed the stack with the
artifact origin and run the loop with the lineage adjacency. -/
def derivedDiscover (store : MetadataStore) (artifact : Int) :
    Except String (NodeMap × List Edge) :=
  traverse get_edges_derived store [NodeId.artifact artifact] [] []

/-- The discovery phase of GraphIoOpt::graph: seed the stack with the
execution origin and run the loop with the one-hop I/O adjacency. -/
def ioDiscover (store : MetadataStore) (execution : Int) :
    Except String (NodeMap × List Edge) :=
  traverse get_edges_io store [NodeId.execution execution] [] []

theorem traverse_nil (adjacent : MetadataStore → NodeId → List Edge)
    (store : MetadataStore) (nodes : NodeMap) (edges : List Edge) :
    traverse adjacent store [] nodes edges = Except.ok (nodes, edges) := by
  rw [traverse]

theorem traverse_visited (adjacent : MetadataStore → NodeId → List Edge)
    (store : MetadataStore) (id : NodeId) (stack : List NodeId) (nodes : NodeMap)
    (edges : List Edge) (hvis : keyMem nodes id = true) :
    traverse adjacent store (id :: stack) nodes edges =
      traverse adjacent store stack nodes edges := by
  rw [traverse]
  simp [hvis]

theorem traverse_notfound (adjacent : MetadataStore → NodeId → List Edge)
    (store : MetadataStore) (id : NodeId) (stack : List NodeId) (nodes : NodeMap)
    (edges : List Edge) (msg : String) (hvis : keyMem nodes id = false)
    (h : get_node store id = Except.error msg) :
    traverse adjacent store (id :: stack) nodes edges = Except.error msg := by
  rw [traverse]
  simp only [hvis, Bool.false_eq_true, dite_false]
  split
  · next msg2 heq =>
    rw [h] at heq
    cases heq
    rfl
  · next node heq =>
    rw [h] at heq
    cases heq

theorem traverse_new (adjacent : MetadataStore → NodeId → List Edge)
    (store : MetadataStore) (id : NodeId) (stack : List NodeId) (nodes : NodeMap)
    (edges : List Edge) (node : Node) (hvis : keyMem nodes id = false)
    (h : get_node store id = Except.ok node) :
    traverse adjacent store (id :: stack) nodes edges =
      traverse adjacent store (pushEdges (adjacent store id) stack)
        (nodes ++ [(id, node)]) ((adjacent store id).foldl insertEdge edges) := by
  rw [traverse]
  simp only [hvis, Bool.false_eq_true, dite_false]
  split
  · next msg2 heq =>
    rw [h] at heq
    cases heq
  · next node2 heq =>
    rw [h] at heq
    cases heq
    rfl

theorem mem_insertEdge (edges : List Edge) (e x : Edge) :
    x ∈ insertEdge edges e ↔ x ∈ edges ∨ x = e := by
  unfold insertEdge
  split
  · next h =>
    constructor
    · exact Or.inl
    · rintro (hx | rfl)
      · exact hx
      · exact h
  · next h =>
    simp [List.mem_append]

theorem mem_foldl_insertEdge (es : List Edge) (edges : List Edge) (x : Edge) :
    x ∈ es.foldl insertEdge edges ↔ x ∈ edges ∨ x ∈ es := by
  induction es generalizing edges with
  | nil => simp
  | cons e t ih =>
    simp only [List.foldl_cons, ih, mem_insertEdge, List.mem_cons]
    tauto

theorem mem_pushEdges (es : List Edge) (stack : List NodeId) (x : NodeId) :
    x ∈ pushEdges es stack ↔
      (∃ e ∈ es, x = e.from_node ∨ x = e.to_node) ∨ x ∈ stack := by
  induction es generalizing stack with
  | nil => simp [pushEdges]
  | cons e t ih =>
    show x ∈ pushEdges t (e.to_node :: e.from_node :: stack) ↔ _
    rw [ih]
    constructor
    · rintro (⟨f, hf, hx⟩ | hx)
      · exact Or.inl ⟨f, List.mem_cons_of_mem e hf, hx⟩
      · rcases List.mem_cons.mp hx with rfl | hx2
        · exact Or.inl ⟨e, List.mem_cons_self e t, Or.inr rfl⟩
        · rcases List.mem_cons.mp hx2 with rfl | hx3
          · exact Or.inl ⟨e, List.mem_cons_self e t, Or.inl rfl⟩
          · exact Or.inr hx3
    · rintro (⟨f, hf, hx⟩ | hx)
      · rcases List.mem_cons.mp hf with rfl | hf2
        · rcases hx with rfl | rfl
          · simp
          · simp
        · exact Or.inl ⟨f, hf2, hx⟩
      · exact Or.inr (by simp [hx])

theorem keys_append_mono (nodes : NodeMap) (q : NodeId × Node) (k : NodeId)
    (h : k ∈ nodes.map Prod.fst) : k ∈ (nodes ++ [q]).map Prod.fst := by
  simp only [List.map_append, List.mem_append]
  exact Or.inl h

/-- If the discovery loop finishes successfully, the keys of its node map
contain no duplicates: a node is inserted only after a negative
contains_key check. -/
theorem traverse_keys_nodup (adjacent : MetadataStore → NodeId → List Edge)
    (store : MetadataStore) (stack : List NodeId) (nodes : NodeMap)
    (edges : List Edge) (ns : NodeMap) (es : List Edge)
    (hok : traverse adjacent store stack nodes edges = Except.ok (ns, es))
    (hnd : (nodes.map Prod.fst).Nodup) : (ns.map Prod.fst).Nodup := by
  induction stack, nodes, edges using traverse.induct adjacent store with
  | case1 nodes edges =>
    rw [traverse_nil] at hok
    cases hok
    exact hnd
  | case2 id stack nodes edges hvis ih =>
    rw [traverse_visited adjacent store id stack nodes edges hvis] at hok
    exact ih hok hnd
  | case3 id stack nodes edges hvis msg h =>
    rw [traverse_notfound adjacent store id stack nodes edges msg
      (by simpa using hvis) h] at hok
    cases hok
  | case4 id stack nodes edges hvis node h es0 ih =>
    rw [traverse_new adjacent store id stack nodes edges node
      (by simpa using hvis) h] at hok
    refine ih hok ?_
    have hid : id ∉ nodes.map Prod.fst := by
      intro hmem
      apply hvis
      obtain ⟨p, hp, he⟩ := List.mem_map.mp hmem
      exact (keyMem_iff nodes id).mpr ⟨p, hp, he⟩
    simp only [List.map_append, List.map_cons, List.map_nil]
    refine List.Nodup.append hnd (List.nodup_singleton id) ?_
    intro x hx hy
    rw [List.mem_singleton] at hy
    subst hy
    exact hid hx

/-- Keys already in the node map survive to the end of the loop. -/
theorem traverse_keys_mono (adjacent : MetadataStore → NodeId → List Edge)
    (store : MetadataStore) (stack : List NodeId) (nodes : NodeMap)
    (edges : List Edge) (ns : NodeMap) (es : List Edge)
    (hok : traverse adjacent store stack nodes edges = Except.ok (ns, es)) :
    ∀ k ∈ nodes.map Prod.fst, k ∈ ns.map Prod.fst := by
  induction stack, nodes, edges using traverse.induct adjacent store with
  | case1 nodes edges =>
    rw [traverse_nil] at hok
    cases hok
    exact fun k hk => hk
  | case2 id stack nodes edges hvis ih =>
    rw [traverse_visited adjacent store id stack nodes edges hvis] at hok
    exact ih hok
  | case3 id stack nodes edges hvis msg h =>
    rw [traverse_notfound adjacent store id stack nodes edges msg
      (by simpa using hvis) h] at hok
    cases hok
  | case4 id stack nodes edges hvis node h es0 ih =>
    rw [traverse_new adjacent store id stack nodes edges node
      (by simpa using hvis) h] at hok
    intro k hk
    exact ih hok k (keys_append_mono nodes (id, node) k hk)

/-- Every id sitting on the stack when the loop finishes successfully has
been inserted into the node map. -/
theorem traverse_stack_absorbed (adjacent : MetadataStore → NodeId → List Edge)
    (store : MetadataStore) (stack : List NodeId) (nodes : NodeMap)
    (edges : List Edge) (ns : NodeMap) (es : List Edge)
    (hok : traverse adjacent store stack nodes edges = Except.ok (ns, es)) :
    ∀ k ∈ stack, k ∈ ns.map Prod.fst := by
  induction stack, nodes, edges using traverse.induct adjacent store with
  | case1 nodes edges =>
    intro k hk
    cases hk
  | case2 id stack nodes edges hvis ih =>
    rw [traverse_visited adjacent store id stack nodes edges hvis] at hok
    intro k hk
    rcases List.mem_cons.mp hk with rfl | hk2
    · obtain ⟨p, hp, he⟩ := (keyMem_iff nodes k).mp hvis
      exact traverse_keys_mono adjacent store stack nodes edges ns es hok k
        (List.mem_map.mpr ⟨p, hp, he⟩)
    · exact ih hok k hk2
  | case3 id stack nodes edges hvis msg h =>
    rw [traverse_notfound adjacent store id stack nodes edges msg
      (by simpa using hvis) h] at hok
    cases hok
  | case4 id stack nodes edges hvis node h es0 ih =>
    rw [traverse_new adjacent store id stack nodes edges node
      (by simpa using hvis) h] at hok
    intro k hk
    rcases List.mem_cons.mp hk with rfl | hk2
    · refine traverse_keys_mono adjacent store _ _ _ ns es hok k ?_
      simp
    · exact ih hok k ((mem_pushEdges (adjacent store id) stack k).mpr (Or.inr hk2))

/-- Endpoint closure: on success, every edge in the accumulated set has
both endpoints among the node-map keys, provided the edges accumulated so
far have their endpoints in the keys or on the stack (initially there are
no edges, so this holds trivially). -/
theorem traverse_closed (adjacent : MetadataStore → NodeId → List Edge)
    (store : MetadataStore) (stack : List NodeId) (nodes : NodeMap)
    (edges : List Edge) (ns : NodeMap) (es : List Edge)
    (hok : traverse adjacent store stack nodes edges = Except.ok (ns, es))
    (hinv : ∀ e ∈ edges,
      (e.from_node ∈ nodes.map Prod.fst ∨ e.from_node ∈ stack) ∧
        (e.to_node ∈ nodes.map Prod.fst ∨ e.to_node ∈ stack)) :
    ∀ e ∈ es, e.from_node ∈ ns.map Prod.fst ∧ e.to_node ∈ ns.map Prod.fst := by
  induction stack, nodes, edges using traverse.induct adjacent store with
  | case1 nodes edges =>
    rw [traverse_nil] at hok
    cases hok
    intro e he
    rcases hinv e he with ⟨h1 | h1, h2 | h2⟩ <;> first
      | exact ⟨h1, h2⟩
      | cases h1
      | cases h2
  | case2 id stack nodes edges hvis ih =>
    rw [traverse_visited adjacent store id stack nodes edges hvis] at hok
    refine ih hok ?_
    intro e he
    have hidk : id ∈ nodes.map Prod.fst := by
      obtain ⟨p, hp, hpe⟩ := (keyMem_iff nodes id).mp hvis
      exact List.mem_map.mpr ⟨p, hp, hpe⟩
    rcases hinv e he with ⟨h1, h2⟩
    constructor
    · rcases h1 with h1 | h1
      · exact Or.inl h1
      · rcases List.mem_cons.mp h1 with rfl | h1b
        · exact Or.inl hidk
        · exact Or.inr h1b
    · rcases h2 with h2 | h2
      · exact Or.inl h2
      · rcases List.mem_cons.mp h2 with rfl | h2b
        · exact Or.inl hidk
        · exact Or.inr h2b
  | case3 id stack nodes edges hvis msg h =>
    rw [traverse_notfound adjacent store id stack nodes edges msg
      (by simpa using hvis) h] at hok
    cases hok
  | case4 id stack nodes edges hvis node h es0 ih =>
    rw [traverse_new adjacent store id stack nodes edges node
      (by simpa using hvis) h] at hok
    refine ih hok ?_
    intro e he
    rw [mem_foldl_insertEdge] at he
    rcases he with he | he
    · rcases hinv e he with ⟨h1, h2⟩
      constructor
      · rcases h1 with h1 | h1
        · exact Or.inl (keys_append_mono nodes (id, node) _ h1)
        · rcases List.mem_cons.mp h1 with heq | h1b
          · rw [heq]
            exact Or.inl (by simp)
          · exact Or.inr ((mem_pushEdges _ stack _).mpr (Or.inr h1b))
      · rcases h2 with h2 | h2
        · exact Or.inl (keys_append_mono nodes (id, node) _ h2)
        · rcases List.mem_cons.mp h2 with heq | h2b
          · rw [heq]
            exact Or.inl (by simp)
          · exact Or.inr ((mem_pushEdges _ stack _).mpr (Or.inr h2b))
    · constructor
      · exact Or.inr ((mem_pushEdges _ stack _).mpr (Or.inl ⟨e, he, Or.inl rfl⟩))
      · exact Or.inr ((mem_pushEdges _ stack _).mpr (Or.inl ⟨e, he, Or.inr rfl⟩))

/-- Every edge in the final set either was in the initial set or was
produced by the adjacency policy at some id; hence any property holding of
every adjacency result holds of every discovered edge. -/
theorem traverse_edge_pred (adjacent : MetadataStore → NodeId → List Edge)
    (store : MetadataStore) (P : Edge → Prop)
    (hadj : ∀ id e, e ∈ adjacent store id → P e)
    (stack : List NodeId) (nodes : NodeMap) (edges : List Edge)
    (ns : NodeMap) (es : List Edge)
    (hok : traverse adjacent store stack nodes edges = Except.ok (ns, es))
    (hbase : ∀ e ∈ edges, P e) : ∀ e ∈ es, P e := by
  induction stack, nodes, edges using traverse.induct adjacent store with
  | case1 nodes edges =>
    rw [traverse_nil] at hok
    cases hok
    exact hbase
  | case2 id stack nodes edges hvis ih =>
    rw [traverse_visited adjacent store id stack nodes edges hvis] at hok
    exact ih hok hbase
  | case3 id stack nodes edges hvis msg h =>
    rw [traverse_notfound adjacent store id stack nodes edges msg
      (by simpa using hvis) h] at hok
    cases hok
  | case4 id stack nodes edges hvis node h es0 ih =>
    rw [traverse_new adjacent store id stack nodes edges node
      (by simpa using hvis) h] at hok
    refine ih hok ?_
    intro e he
    rw [mem_foldl_insertEdge] at he
    rcases he with he | he
    · exact hbase e he
    · exact hadj id e he

theorem get_edges_io_execution_id (store : MetadataStore) (eid : Int) (e : Edge)
    (he : e ∈ get_edges_io store (NodeId.execution eid)) :
    e.event.execution_id = eid := by
  simp only [get_edges_io, MetadataStore.events_by_execution, List.mem_map] at he
  obtain ⟨ev, hev, rfl⟩ := he
  simpa using List.of_mem_filter hev

/-- Both endpoints of an edge name the execution id of its event whenever
they are execution nodes. -/
theorem endpoint_execution_eq (e : Edge) (i : Int)
    (h : e.from_node = NodeId.execution i ∨ e.to_node = NodeId.execution i) :
    i = e.event.execution_id := by
  unfold Edge.from_node Edge.to_node at h
  rcases h with h | h <;> split at h <;> simp_all

/-- Under the I/O adjacency policy, every execution key ever reachable is
the one the stack started from: the policy only queries events of the
execution it is expanding, so the only execution endpoint it pushes is
that same execution. -/
theorem traverse_io_execs (store : MetadataStore) (x0 : Int)
    (stack : List NodeId) (nodes : NodeMap) (edges : List Edge)
    (ns : NodeMap) (es : List Edge)
    (hok : traverse get_edges_io store stack nodes edges = Except.ok (ns, es))
    (hstack : ∀ y ∈ stack, ∀ i : Int, y = NodeId.execution i → i = x0)
    (hnodes : ∀ p ∈ nodes, ∀ i : Int, p.1 = NodeId.execution i → i = x0) :
    ∀ p ∈ ns, ∀ i : Int, p.1 = NodeId.execution i → i = x0 := by
  induction stack, nodes, edges using traverse.induct get_edges_io store with
  | case1 nodes edges =>
    rw [traverse_nil] at hok
    cases hok
    exact hnodes
  | case2 id stack nodes edges hvis ih =>
    rw [traverse_visited get_edges_io store id stack nodes edges hvis] at hok
    exact ih hok (fun y hy => hstack y (List.mem_cons_of_mem id hy)) hnodes
  | case3 id stack nodes edges hvis msg h =>
    rw [traverse_notfound get_edges_io store id stack nodes edges msg
      (by simpa using hvis) h] at hok
    cases hok
  | case4 id stack nodes edges hvis node h es0 ih =>
    rw [traverse_new get_edges_io store id stack nodes edges node
      (by simpa using hvis) h] at hok
    refine ih hok ?_ ?_
    · intro y hy i hyi
      rw [mem_pushEdges] at hy
      rcases hy with ⟨e, he, hend⟩ | hy2
      · subst hyi
        cases id with
        | artifact aid =>
          have he2 : e ∈ get_edges_io store (NodeId.artifact aid) := he
          simp [get_edges_io] at he2
        | execution eid =>
          have h1 : i = e.event.execution_id := by
            apply endpoint_execution_eq
            rcases hend with hend | hend
            · exact Or.inl hend.symm
            · exact Or.inr hend.symm
          have h2 : e.event.execution_id = eid :=
            get_edges_io_execution_id store eid e he
          have h3 : eid = x0 :=
            hstack (NodeId.execution eid) (List.mem_cons_self _ _) eid rfl
          omega
      · exact hstack y (List.mem_cons_of_mem id hy2) i hyi
    · intro p hp i hpi
      rcases List.mem_append.mp hp with hp2 | hp2
      · exact hnodes p hp2 i hpi
      · rw [List.mem_singleton] at hp2
        subst hp2
        exact hstack id (List.mem_cons_self _ _) i hpi

/-- The discovery phase of GraphIoOpt::graph never maps any execution key
other than the origin execution. -/
theorem ioDiscover_execs (store : MetadataStore) (x : Int) (ns : NodeMap)
    (es : List Edge) (hok : ioDiscover store x = Except.ok (ns, es)) :
    ∀ p ∈ ns, ∀ i : Int, p.1 = NodeId.execution i → i = x := by
  refine traverse_io_execs store x [NodeId.execution x] [] [] ns es hok ?_ ?_
  · intro y hy i hyi
    rw [List.mem_singleton] at hy
    subst hy
    cases hyi
    rfl
  · intro p hp
    cases hp

theorem get_edges_derived_classed (store : MetadataStore) (id : NodeId) (e : Edge)
    (he : e ∈ get_edges_derived store id) :
    isInputClass e.event.ty = true ∨ isOutputClass e.event.ty = true := by
  cases id with
  | artifact aid =>
    simp only [get_edges_derived, List.mem_map] at he
    obtain ⟨ev, hev, rfl⟩ := he
    exact Or.inl (List.mem_filter.mp hev).2
  | execution eid =>
    simp only [get_edges_derived, List.mem_map] at he
    obtain ⟨ev, hev, rfl⟩ := he
    exact Or.inr (List.mem_filter.mp hev).2

/-- Edges discovered by the lineage policy never carry an Unknown-typed
event: both branches of its get_edges filter on an explicit event class. -/
theorem derivedDiscover_no_unknown (store : MetadataStore) (origin : Int)
    (ns : NodeMap) (es : List Edge)
    (hok : derivedDiscover store origin = Except.ok (ns, es)) :
    ∀ e ∈ es, e.event.ty ≠ EventType.unknown := by
  refine traverse_edge_pred get_edges_derived store
    (fun e => e.event.ty ≠ EventType.unknown) ?_ _ _ _ ns es hok ?_
  · intro id e he hc
    rcases get_edges_derived_classed store id e he with h | h <;>
      rw [hc] at h <;> simp [isInputClass, isOutputClass] at h
  · intro e he
    cases he

/-
Concrete stores exercising the discovery loop.
-/

/-- Artifact record 1, type 100. -/
def recA1 : Artifact := ⟨1, 100, none⟩

/-- Artifact record 2, type 100. -/
def recA2 : Artifact := ⟨2, 100, none⟩

/-- Artifact record 3, type 100. -/
def recA3 : Artifact := ⟨3, 100, none⟩

/-- Execution record 10, type 200. -/
def recE10 : Execution := ⟨10, 200, none⟩

/-- Execution record 20, type 200. -/
def recE20 : Execution := ⟨20, 200, none⟩

/-- Artifact type record 100. -/
def tyA : ArtifactType := ⟨100, "A"⟩

/-- Execution type record 200. -/
def tyE : ExecutionType := ⟨200, "E"⟩

/-- An input-class event linking artifact 1 and execution 10. -/
def inEv : Event := ⟨1, 10, [], EventType.input, 0⟩

/-- An output-class event linking artifact 1 and execution 10. -/
def outEv : Event := ⟨1, 10, [], EventType.output, 0⟩

/-- An Unknown-typed event linking artifact 1 and execution 10. -/
def unkEv : Event := ⟨1, 10, [], EventType.unknown, 0⟩

/-- Output event of execution 10 producing artifact 2. -/
def outEv1 : Event := ⟨2, 10, [], EventType.output, 0⟩

/-- Input event of execution 20 consuming artifact 2. -/
def inEv2 : Event := ⟨2, 20, [], EventType.input, 0⟩

/-- Output event of execution 20 producing artifact 3. -/
def outEv2 : Event := ⟨3, 20, [], EventType.output, 0⟩

/-- A store whose event structure is cyclic: artifact 1 and execution 10
are linked by one input-class and one output-class event. -/
def cyclicStore : MetadataStore := ⟨[recA1], [recE10], [inEv, outEv], [tyA], [tyE]⟩

/-- A store where execution 10 produced artifact 1 via an output-class
event and nothing consumes artifact 1. -/
def upstreamStore : MetadataStore := ⟨[recA1], [recE10], [outEv], [tyA], [tyE]⟩

/-- A store whose only event is Unknown-typed. -/
def unknownStore : MetadataStore := ⟨[recA1], [recE10], [unkEv], [tyA], [tyE]⟩

/-- A two-execution chain: artifact 1 feeds execution 10, which produces
artifact 2, which feeds execution 20, which produces artifact 3. -/
def chainStore : MetadataStore :=
  ⟨[recA1, recA2, recA3], [recE10, recE20], [inEv, outEv1, inEv2, outEv2], [tyA], [tyE]⟩

/-- Node map discovered by the lineage traversal of the cyclic store. -/
def cyclicNodes : NodeMap :=
  [(NodeId.artifact 1, Node.artifact recA1), (NodeId.execution 10, Node.execution recE10)]

/-- Edge set discovered by the lineage traversal of the cyclic store. -/
def cyclicEdges : List Edge := [Edge.mk inEv, Edge.mk outEv]

/-- Node map discovered by the I/O traversal of the unknown-event store. -/
def unknownNodes : NodeMap :=
  [(NodeId.execution 10, Node.execution recE10), (NodeId.artifact 1, Node.artifact recA1)]

/-- Node map discovered by the lineage traversal of the chain store. -/
def chainNodes : NodeMap :=
  [(NodeId.artifact 1, Node.artifact recA1), (NodeId.execution 10, Node.execution recE10),
   (NodeId.artifact 2, Node.artifact recA2), (NodeId.execution 20, Node.execution recE20),
   (NodeId.artifact 3, Node.artifact recA3)]

/-- Edge set discovered by the lineage traversal of the chain store. -/
def chainEdges : List Edge :=
  [Edge.mk inEv, Edge.mk outEv1, Edge.mk inEv2, Edge.mk outEv2]

theorem derived_run_cyclic :
    derivedDiscover cyclicStore 1 = Except.ok (cyclicNodes, cyclicEdges) := by
  refine ((((traverse_new _ _ _ _ _ _ (Node.artifact recA1) ?_ ?_).trans
    (traverse_new _ _ _ _ _ _ (Node.execution recE10) ?_ ?_)).trans
    ((traverse_visited _ _ _ _ _ _ ?_).trans
      ((traverse_visited _ _ _ _ _ _ ?_).trans
        (traverse_visited _ _ _ _ _ _ ?_)))).trans
    (traverse_nil _ _ _ _)) <;> rfl

theorem derived_run_upstream :
    derivedDiscover upstreamStore 1 =
      Except.ok ([(NodeId.artifact 1, Node.artifact recA1)], []) := by
  refine ((traverse_new _ _ _ _ _ _ (Node.artifact recA1) ?_ ?_).trans
    (traverse_nil _ _ _ _)) <;> rfl

theorem io_run_unknown :
    ioDiscover unknownStore 10 = Except.ok (unknownNodes, [Edge.mk unkEv]) := by
  refine ((((traverse_new _ _ _ _ _ _ (Node.execution recE10) ?_ ?_).trans
    (traverse_new _ _ _ _ _ _ (Node.artifact recA1) ?_ ?_)).trans
    (traverse_visited _ _ _ _ _ _ ?_)).trans
    (traverse_nil _ _ _ _)) <;> rfl

theorem derived_run_chain :
    derivedDiscover chainStore 1 = Except.ok (chainNodes, chainEdges) := by
  refine ((((((((((traverse_new _ _ _ _ _ _ (Node.artifact recA1) ?_ ?_).trans
    (traverse_new _ _ _ _ _ _ (Node.execution recE10) ?_ ?_)).trans
    (traverse_new _ _ _ _ _ _ (Node.artifact recA2) ?_ ?_)).trans
    (traverse_new _ _ _ _ _ _ (Node.execution recE20) ?_ ?_)).trans
    (traverse_new _ _ _ _ _ _ (Node.artifact recA3) ?_ ?_)).trans
    (traverse_visited _ _ _ _ _ _ ?_)).trans
    (traverse_visited _ _ _ _ _ _ ?_)).trans
    (traverse_visited _ _ _ _ _ _ ?_)).trans
    (traverse_visited _ _ _ _ _ _ ?_)).trans
    (traverse_nil _ _ _ _)) <;> rfl

theorem get_node_artifact_error (store : MetadataStore) (aid : Int)
    (h : (store.artifacts_by_id aid).length ≠ 1) :
    get_node store (NodeId.artifact aid) =
      Except.error ("No such artifact: " ++ toString aid) := by
  simp only [get_node]
  split
  · next a heq => exact (h (by rw [heq]; rfl)).elim
  · rfl

theorem get_node_execution_error (store : MetadataStore) (eid : Int)
    (h : (store.executions_by_id eid).length ≠ 1) :
    get_node store (NodeId.execution eid) =
      Except.error ("No such execution: " ++ toString eid) := by
  simp only [get_node]
  split
  · next e heq => exact (h (by rw [heq]; rfl)).elim
  · rfl

/-- C1: for every finite store the worklist traversal shared by the
lineage and I/O commands terminates — it is the total function traverse,
well-founded on the count of store nodes not yet visited, so every node
and edge of the store is expanded at most once — even on the cyclic store
where artifact 1 and execution 10 are linked back and forth by two
events, and there both nodes appear exactly once in the node map;
in general every successful run yields a node map whose key list is free
of duplicates. -/
theorem C1_traversal_terminates_and_keys_unique :
    (derivedDiscover cyclicStore 1 = Except.ok (cyclicNodes, cyclicEdges) ∧
      cyclicNodes.map Prod.fst = [NodeId.artifact 1, NodeId.execution 10] ∧
      (cyclicNodes.map Prod.fst).Nodup) ∧
    (∀ (adjacent : MetadataStore → NodeId → List Edge) (store : MetadataStore)
      (origin : NodeId) (ns : NodeMap) (es : List Edge),
      traverse adjacent store [origin] [] [] = Except.ok (ns, es) →
      (ns.map Prod.fst).Nodup) := by
  constructor
  · exact ⟨derived_run_cyclic, rfl, by decide⟩
  · intro adjacent store origin ns es hok
    exact traverse_keys_nodup adjacent store [origin] [] [] ns es hok (by simp)

theorem C1_witness : (cyclicNodes.map Prod.fst).Nodup :=
  C1_traversal_terminates_and_keys_unique.2 get_edges_derived cyclicStore
    (NodeId.artifact 1) cyclicNodes cyclicEdges derived_run_cyclic

/-- C2: under both discovery policies, every NodeId returned by from_node
or to_node of any discovered edge is a key of the discovered node map. -/
theorem C2_edge_endpoints_in_node_map :
    ∀ (store : MetadataStore) (origin : Int) (ns : NodeMap) (es : List Edge),
      (derivedDiscover store origin = Except.ok (ns, es) →
        ∀ e ∈ es, e.from_node ∈ ns.map Prod.fst ∧ e.to_node ∈ ns.map Prod.fst) ∧
      (ioDiscover store origin = Except.ok (ns, es) →
        ∀ e ∈ es, e.from_node ∈ ns.map Prod.fst ∧ e.to_node ∈ ns.map Prod.fst) := by
  intro store origin ns es
  constructor <;> intro hok <;>
    exact traverse_closed _ store _ [] [] ns es hok (fun e he => absurd he (by simp))

theorem C2_witness :
    (Edge.mk inEv).from_node ∈ cyclicNodes.map Prod.fst ∧
      (Edge.mk inEv).to_node ∈ cyclicNodes.map Prod.fst :=
  (C2_edge_endpoints_in_node_map cyclicStore 1 cyclicNodes cyclicEdges).1
    derived_run_cyclic (Edge.mk inEv) (by decide)

theorem output_class_not_input_class (ty : EventType)
    (h : isOutputClass ty = true) : isInputClass ty = false := by
  cases ty <;> revert h <;> decide

/-- C3: input-class events make an edge flow artifact to execution and
output-class events make it flow execution to artifact. -/
theorem C3_edge_direction :
    ∀ ev : Event,
      (isInputClass ev.ty = true →
        (Edge.mk ev).from_node = NodeId.artifact ev.artifact_id ∧
          (Edge.mk ev).to_node = NodeId.execution ev.execution_id) ∧
      (isOutputClass ev.ty = true →
        (Edge.mk ev).from_node = NodeId.execution ev.execution_id ∧
          (Edge.mk ev).to_node = NodeId.artifact ev.artifact_id) := by
  intro ev
  constructor
  · intro h
    simp [Edge.from_node, Edge.to_node, h]
  · intro h
    simp [Edge.from_node, Edge.to_node, output_class_not_input_class ev.ty h]

theorem C3_witness :
    ((Edge.mk inEv).from_node = NodeId.artifact inEv.artifact_id ∧
      (Edge.mk inEv).to_node = NodeId.execution inEv.execution_id) ∧
    ((Edge.mk outEv).from_node = NodeId.execution outEv.execution_id ∧
      (Edge.mk outEv).to_node = NodeId.artifact outEv.artifact_id) :=
  ⟨(C3_edge_direction inEv).1 (by decide), (C3_edge_direction outEv).2 (by decide)⟩

/-- C4 counterexample: the I/O policy inserts an Unknown-typed event into
the discovered edge set (its get_edges has no event-type filter), so the
claim that neither policy ever keeps an Unknown event is false. -/
theorem C4_counterexample :
    ioDiscover unknownStore 10 = Except.ok (unknownNodes, [Edge.mk unkEv]) ∧
      unkEv.ty = EventType.unknown :=
  ⟨io_run_unknown, rfl⟩

/-- C4 amended: the lineage policy never inserts an Unknown-typed event
into the edge set, while the I/O policy inserts every event adjacent to
an expanded execution — Unknown-typed events included. -/
theorem C4_amended_unknown_edges :
    (∀ (store : MetadataStore) (origin : Int) (ns : NodeMap) (es : List Edge),
      derivedDiscover store origin = Except.ok (ns, es) →
      ∀ e ∈ es, e.event.ty ≠ EventType.unknown) ∧
    (∀ (store : MetadataStore) (eid : Int) (ev : Event),
      ev ∈ store.events_by_execution eid →
      Edge.mk ev ∈ get_edges_io store (NodeId.execution eid)) ∧
    ioDiscover unknownStore 10 = Except.ok (unknownNodes, [Edge.mk unkEv]) := by
  refine ⟨derivedDiscover_no_unknown, ?_, io_run_unknown⟩
  intro store eid ev hev
  simp only [get_edges_io, List.mem_map]
  exact ⟨ev, hev, rfl⟩

theorem C4_witness : (Edge.mk inEv).event.ty ≠ EventType.unknown :=
  C4_amended_unknown_edges.1 cyclicStore 1 cyclicNodes cyclicEdges
    derived_run_cyclic (Edge.mk inEv) (by decide)

/-- C5 counterexample: in a store whose only event is an output-class
event linking execution 10 to the origin artifact 1, the lineage
traversal returns a node map without execution 10 — the policy does not
walk upstream to the producer of the origin, refuting the claim that the
full upstream ancestry is produced and that such an execution is included. -/
theorem C5_counterexample :
    outEv ∈ upstreamStore.events ∧ isOutputClass outEv.ty = true ∧
      outEv.artifact_id = 1 ∧ outEv.execution_id = 10 ∧
      derivedDiscover upstreamStore 1 =
        Except.ok ([(NodeId.artifact 1, Node.artifact recA1)], []) ∧
      NodeId.execution 10 ∉
        ([(NodeId.artifact 1, Node.artifact recA1)] : NodeMap).map Prod.fst :=
  ⟨by decide, by decide, by decide, by decide, derived_run_upstream, by decide⟩

/-- C5 amended: the lineage policy recurses arbitrarily deep, but only
downstream: at an artifact its adjacency is exactly the input-class events
naming that artifact, at an execution exactly the output-class events
naming that execution; a two-execution chain is followed to its end, and
an execution that only produced the origin via an output-class event is
not discovered. -/
theorem C5_amended_lineage_downstream :
    (∀ (store : MetadataStore) (aid : Int) (e : Edge),
      e ∈ get_edges_derived store (NodeId.artifact aid) ↔
        e.event ∈ store.events ∧ e.event.artifact_id = aid ∧
          isInputClass e.event.ty = true) ∧
    (∀ (store : MetadataStore) (eid : Int) (e : Edge),
      e ∈ get_edges_derived store (NodeId.execution eid) ↔
        e.event ∈ store.events ∧ e.event.execution_id = eid ∧
          isOutputClass e.event.ty = true) ∧
    (derivedDiscover chainStore 1 = Except.ok (chainNodes, chainEdges) ∧
      NodeId.execution 20 ∈ chainNodes.map Prod.fst ∧
      NodeId.artifact 3 ∈ chainNodes.map Prod.fst) ∧
    (derivedDiscover upstreamStore 1 =
        Except.ok ([(NodeId.artifact 1, Node.artifact recA1)], []) ∧
      NodeId.execution 10 ∉
        ([(NodeId.artifact 1, Node.artifact recA1)] : NodeMap).map Prod.fst) := by
  refine ⟨?_, ?_, ⟨derived_run_chain, by decide, by decide⟩,
    derived_run_upstream, by decide⟩
  · intro store aid e
    constructor
    · intro he
      simp only [get_edges_derived, List.mem_map] at he
      obtain ⟨ev, hev, rfl⟩ := he
      have h2 := List.mem_filter.mp hev
      have h3 := List.mem_filter.mp h2.1
      exact ⟨h3.1, by simpa using h3.2, h2.2⟩
    · rintro ⟨h1, h2, h3⟩
      simp only [get_edges_derived, List.mem_map]
      refine ⟨e.event, ?_, rfl⟩
      exact List.mem_filter.mpr ⟨List.mem_filter.mpr ⟨h1, by simpa using h2⟩, h3⟩
  · intro store eid e
    constructor
    · intro he
      simp only [get_edges_derived, List.mem_map] at he
      obtain ⟨ev, hev, rfl⟩ := he
      have h2 := List.mem_filter.mp hev
      have h3 := List.mem_filter.mp h2.1
      exact ⟨h3.1, by simpa using h3.2, h2.2⟩
    · rintro ⟨h1, h2, h3⟩
      simp only [get_edges_derived, List.mem_map]
      refine ⟨e.event, ?_, rfl⟩
      exact List.mem_filter.mpr ⟨List.mem_filter.mpr ⟨h1, by simpa using h2⟩, h3⟩

/-- C6: on the two-execution chain the lineage policy recurses through
both executions; the I/O policy never maps an execution other than its
origin, and artifacts are leaves for it (their adjacency is empty). -/
theorem C6_policy_isolation :
    (derivedDiscover chainStore 1 = Except.ok (chainNodes, chainEdges) ∧
      NodeId.execution 10 ∈ chainNodes.map Prod.fst ∧
      NodeId.execution 20 ∈ chainNodes.map Prod.fst) ∧
    (∀ (store : MetadataStore) (x : Int) (ns : NodeMap) (es : List Edge),
      ioDiscover store x = Except.ok (ns, es) →
      ∀ p ∈ ns, ∀ i : Int, p.1 = NodeId.execution i → i = x) ∧
    (∀ (store : MetadataStore) (aid : Int),
      get_edges_io store (NodeId.artifact aid) = []) :=
  ⟨⟨derived_run_chain, by decide, by decide⟩, ioDiscover_execs,
    fun _ _ => rfl⟩

theorem C6_witness : (10 : Int) = 10 :=
  C6_policy_isolation.2.1 unknownStore 10 unknownNodes [Edge.mk unkEv]
    io_run_unknown (NodeId.execution 10, Node.execution recE10) (by decide) 10 rfl

/-- C7: an id that does not resolve to exactly one record makes get_node
fail with the not-found message naming the node kind and id; the loop
propagates that failure the moment such an id is popped, so the whole
discovery returns the error and no node map or edge set is produced. -/
theorem C7_notfound_aborts :
    (∀ (store : MetadataStore) (aid : Int),
      (store.artifacts_by_id aid).length ≠ 1 →
      get_node store (NodeId.artifact aid) =
        Except.error ("No such artifact: " ++ toString aid)) ∧
    (∀ (store : MetadataStore) (eid : Int),
      (store.executions_by_id eid).length ≠ 1 →
      get_node store (NodeId.execution eid) =
        Except.error ("No such execution: " ++ toString eid)) ∧
    (∀ (adjacent : MetadataStore → NodeId → List Edge) (store : MetadataStore)
      (id : NodeId) (stack : List NodeId) (nodes : NodeMap) (edges : List Edge)
      (msg : String), keyMem nodes id = false →
      get_node store id = Except.error msg →
      traverse adjacent store (id :: stack) nodes edges = Except.error msg) ∧
    (∀ (store : MetadataStore) (aid : Int),
      (store.artifacts_by_id aid).length ≠ 1 →
      derivedDiscover store aid =
        Except.error ("No such artifact: " ++ toString aid)) ∧
    (∀ (store : MetadataStore) (eid : Int),
      (store.executions_by_id eid).length ≠ 1 →
      ioDiscover store eid =
        Except.error ("No such execution: " ++ toString eid)) := by
  refine ⟨get_node_artifact_error, get_node_execution_error,
    traverse_notfound, ?_, ?_⟩
  · intro store aid h
    exact traverse_notfound get_edges_derived store (NodeId.artifact aid) [] [] [] _
      rfl (get_node_artifact_error store aid h)
  · intro store eid h
    exact traverse_notfound get_edges_io store (NodeId.execution eid) [] [] [] _
      rfl (get_node_execution_error store eid h)

theorem C7_witness :
    derivedDiscover cyclicStore 999 =
        Except.error ("No such artifact: " ++ toString (999 : Int)) ∧
      ioDiscover cyclicStore 999 =
        Except.error ("No such execution: " ++ toString (999 : Int)) :=
  ⟨C7_notfound_aborts.2.2.2.1 cyclicStore 999 (by decide),
    C7_notfound_aborts.2.2.2.2 cyclicStore 999 (by decide)⟩

/-- C9: edge identity is full event-tuple equality: wrapping is injective,
re-inserting an identical event leaves the edge set unchanged, and two
events on the same artifact/execution pair differing only in their type
stay distinct edges. -/
theorem C9_edge_identity :
    (∀ e1 e2 : Event, Edge.mk e1 = Edge.mk e2 ↔ e1 = e2) ∧
    insertEdge [Edge.mk inEv] (Edge.mk inEv) = [Edge.mk inEv] ∧
    (inEv.artifact_id = outEv.artifact_id ∧
      inEv.execution_id = outEv.execution_id ∧ inEv.ty ≠ outEv.ty ∧
      insertEdge [Edge.mk inEv] (Edge.mk outEv) = [Edge.mk inEv, Edge.mk outEv]) ∧
    (∀ (edges : List Edge) (e x : Edge),
      x ∈ insertEdge edges e ↔ x ∈ edges ∨ x = e) := by
  refine ⟨?_, by decide, ⟨rfl, rfl, by decide, by decide⟩, mem_insertEdge⟩
  intro e1 e2
  exact ⟨fun h => congrArg Edge.event h, fun h => by rw [h]⟩

/-
The Type and Color Resolver of Graph::new (src/graph.rs).
-/

/-- Type from src/graph.rs (the Rust name Type is reserved in Lean):
a tagged union of artifact and execution type records. -/
inductive Ty where
  | artifact (t : ArtifactType)
  | execution (t : ExecutionType)
deriving DecidableEq, Repr

/-- Type::id from src/graph.rs. -/
def Ty.id : Ty → Int
  | Ty.artifact t => t.id
  | Ty.execution t => t.id

/-- The matches!(ty, Type::Artifact(_)) discriminator used by the color
chain and the legends in src/graph.rs. -/
def isArtifactTy : Ty → Bool
  | Ty.artifact _ => true
  | Ty.execution _ => false

/-- Key-ordered insertion with replacement on equal keys: the BTreeMap
insert used (through extend) by Graph::new, modelled on a key-sorted
association list so that iteration order is ascending type id. -/
def insertSorted (m : List (Int × Ty)) (k : Int) (v : Ty) : List (Int × Ty) :=
  match m with
  | [] => [(k, v)]
  | (k0, v0) :: rest =>
    if k < k0 then (k, v) :: (k0, v0) :: rest
    else if k = k0 then (k, v) :: rest
    else (k0, v0) :: insertSorted rest k v

/-- types.extend(..) of Graph::new on the BTreeMap model. -/
def extendSorted (m : List (Int × Ty)) (ts : List (Int × Ty)) : List (Int × Ty) :=
  ts.foldl (fun acc p => insertSorted acc p.1 p.2) m

/-- The type_id iterator Graph::new passes to get_artifact_types().ids:
type ids of the artifact nodes, in node-map order, duplicates included. -/
def requestedArtifactTypeIds (nodes : NodeMap) : List Int :=
  (nodes.map Prod.snd).filterMap fun n =>
    match n with
    | Node.artifact a => some a.type_id
    | Node.execution _ => none

/-- Type ids of the execution nodes, as requested by Graph::new. -/
def requestedExecutionTypeIds (nodes : NodeMap) : List Int :=
  (nodes.map Prod.snd).filterMap fun n =>
    match n with
    | Node.artifact _ => none
    | Node.execution e => some e.type_id

/-- store.get_artifact_types().ids(ids).execute(): the artifact type
records whose id is among the requested ids. -/
def MetadataStore.artifact_types_by_ids (s : MetadataStore) (ids : List Int) :
    List ArtifactType :=
  s.artifact_types.filter (fun t => ids.contains t.id)

/-- store.get_execution_types().ids(ids).execute(). -/
def MetadataStore.execution_types_by_ids (s : MetadataStore) (ids : List Int) :
    List ExecutionType :=
  s.execution_types.filter (fun t => ids.contains t.id)

/-- The BTreeMap of Graph::new after the artifact-type extend (the point
where artifact_type_count is read off). -/
def artifactTypesMap (store : MetadataStore) (nodes : NodeMap) : List (Int × Ty) :=
  extendSorted []
    ((store.artifact_types_by_ids (requestedArtifactTypeIds nodes)).map
      (fun t => (t.id, Ty.artifact t)))

/-- The full BTreeMap of Graph::new after the execution-type extend. -/
def graphTypes (store : MetadataStore) (nodes : NodeMap) : List (Int × Ty) :=
  extendSorted (artifactTypesMap store nodes)
    ((store.execution_types_by_ids (requestedExecutionTypeIds nodes)).map
      (fun t => (t.id, Ty.execution t)))

/-- An 8-bit RGB color (palette Srgb<u8>). -/
structure Srgb8 where
  red : Nat
  green : Nat
  blue : Nat
deriving DecidableEq, Repr

/-- Sample position of Gradient::take(n) at index i: n evenly spaced
stops covering the gradient domain (a single sample sits at the start). -/
def gradientPosition (n i : Nat) : ℚ :=
  if n ≤ 1 then 0 else (i : ℚ) / ((n : ℚ) - 1)

/-- Component value of the white-to-mid-gray gradient of Graph::new at a
sample position: linear interpolation from 1.0 down to 0.5.  The palette
crate converts the linear value to sRGB through a floating-point transfer
curve before rounding to u8; that curve is abstracted to the identity
here, an exact rational stand-in — the claims in scope depend only on the
samples being a fixed deterministic function of n and i, evenly spaced,
and quantized to 8 bits, not on the exact transfer-curve values. -/
def gradientComponent (n i : Nat) : ℚ := 1 - gradientPosition n i / 2

/-- Quantization of a unit-interval component to 8 bits. -/
def quantize8 (x : ℚ) : Nat := (⌊x * 255 + 1 / 2⌋).toNat

/-- The gray sample color at index i of Gradient::take(n). -/
def gradientColorAt (n i : Nat) : Srgb8 :=
  ⟨quantize8 (gradientComponent n i), quantize8 (gradientComponent n i),
    quantize8 (gradientComponent n i)⟩

/-- gradient.take(n) from Graph::new. -/
def gradientTake (n : Nat) : List Srgb8 :=
  (List.range n).map (gradientColorAt n)

/-- The first filter_map of the color chain in Graph::new: artifact-kind
type ids of the type map, in map (ascending) order. -/
def artifactTypeKeys (m : List (Int × Ty)) : List Int :=
  m.filterMap fun p =>
    match p.2 with
    | Ty.artifact _ => some p.1
    | Ty.execution _ => none

/-- The second filter_map of the color chain: execution-kind type ids. -/
def executionTypeKeys (m : List (Int × Ty)) : List Int :=
  m.filterMap fun p =>
    match p.2 with
    | Ty.artifact _ => none
    | Ty.execution _ => some p.1

/-- The TypeId -> Color table of Graph::new: artifact type ids in
ascending order zipped against Gradient::take(artifact_type_count),
chained with execution type ids zipped against a fresh
Gradient::take(execution_type_count). -/
def graphColors (store : MetadataStore) (nodes : NodeMap) : List (Int × Srgb8) :=
  let types1 := artifactTypesMap store nodes
  let artifact_type_count := types1.length
  let types := graphTypes store nodes
  let execution_type_count := types.length - artifact_type_count
  (artifactTypeKeys types).zip (gradientTake artifact_type_count) ++
    (executionTypeKeys types).zip (gradientTake execution_type_count)

theorem list_contains_congr {l1 l2 : List Int} (h : ∀ x, x ∈ l1 ↔ x ∈ l2)
    (x : Int) : l1.contains x = l2.contains x := by
  cases h1 : l1.contains x with
  | true =>
    have := (h x).mp (List.elem_iff.mp h1)
    exact (List.elem_iff.mpr this).symm
  | false =>
    cases h2 : l2.contains x with
    | true =>
      have h3 : l1.contains x = true :=
        List.elem_iff.mpr ((h x).mpr (List.elem_iff.mp h2))
      rw [h3] at h1
      cases h1
    | false => rfl

theorem gradientTake_length (n : Nat) : (gradientTake n).length = n := by
  simp [gradientTake]

theorem mem_keys_insertSorted (m : List (Int × Ty)) (k0 : Int) (v : Ty) (k : Int) :
    k ∈ (insertSorted m k0 v).map Prod.fst ↔ k = k0 ∨ k ∈ m.map Prod.fst := by
  induction m with
  | nil => simp [insertSorted]
  | cons p rest ih =>
    obtain ⟨k1, v1⟩ := p
    simp only [insertSorted]
    split
    · simp only [List.map_cons, List.mem_cons] <;> tauto
    · split
      · next h2 =>
        subst h2
        simp only [List.map_cons, List.mem_cons] <;> tauto
      · simp only [List.map_cons, List.mem_cons, ih] <;> tauto

theorem mem_insertSorted_entries (m : List (Int × Ty)) (k : Int) (v : Ty)
    (p : Int × Ty) (hp : p ∈ insertSorted m k v) : p ∈ m ∨ p = (k, v) := by
  induction m with
  | nil =>
    simp only [insertSorted, List.mem_singleton] at hp
    exact Or.inr hp
  | cons q rest ih =>
    obtain ⟨k1, v1⟩ := q
    simp only [insertSorted] at hp
    split at hp
    · rcases List.mem_cons.mp hp with rfl | hp2
      · exact Or.inr rfl
      · exact Or.inl hp2
    · split at hp
      · rcases List.mem_cons.mp hp with rfl | hp2
        · exact Or.inr rfl
        · exact Or.inl (List.mem_cons_of_mem _ hp2)
      · rcases List.mem_cons.mp hp with rfl | hp2
        · exact Or.inl (List.mem_cons_self _ _)
        · rcases ih hp2 with h | h
          · exact Or.inl (List.mem_cons_of_mem _ h)
          · exact Or.inr h

theorem mem_extendSorted_entries (ts : List (Int × Ty)) (m : List (Int × Ty))
    (p : Int × Ty) (hp : p ∈ extendSorted m ts) : p ∈ m ∨ p ∈ ts := by
  induction ts generalizing m with
  | nil => exact Or.inl hp
  | cons q rest ih =>
    rcases ih _ hp with h | h
    · rcases mem_insertSorted_entries m q.1 q.2 p h with h2 | h2
      · exact Or.inl h2
      · refine Or.inr ?_
        rw [h2]
        exact List.mem_cons_self _ _
    · exact Or.inr (List.mem_cons_of_mem _ h)

theorem mem_keys_extendSorted (ts : List (Int × Ty)) (m : List (Int × Ty)) (k : Int) :
    k ∈ (extendSorted m ts).map Prod.fst ↔
      k ∈ m.map Prod.fst ∨ k ∈ ts.map Prod.fst := by
  induction ts generalizing m with
  | nil => simp [extendSorted]
  | cons q rest ih =>
    show k ∈ (extendSorted (insertSorted m q.1 q.2) rest).map Prod.fst ↔ _
    rw [ih, mem_keys_insertSorted]
    simp only [List.map_cons, List.mem_cons]
    tauto

theorem artifactTypesMap_all_artifact (store : MetadataStore) (nodes : NodeMap) :
    ∀ p ∈ artifactTypesMap store nodes, isArtifactTy p.2 = true := by
  intro p hp
  rcases mem_extendSorted_entries _ _ _ hp with h | h
  · cases h
  · obtain ⟨t, ht, rfl⟩ := List.mem_map.mp h
    rfl

theorem artifactTypesMap_keys_sub (store : MetadataStore) (nodes : NodeMap)
    (k : Int) (hk : k ∈ (artifactTypesMap store nodes).map Prod.fst) :
    ∃ a ∈ store.artifact_types, a.id = k := by
  unfold artifactTypesMap at hk
  rw [mem_keys_extendSorted] at hk
  rcases hk with h | h
  · cases h
  · rw [List.map_map] at h
    obtain ⟨t, ht, hteq⟩ := List.mem_map.mp h
    exact ⟨t, (List.mem_filter.mp ht).1, hteq⟩

theorem artifact_filter_insert_exec (m : List (Int × Ty)) (k : Int)
    (t : ExecutionType)
    (hk : k ∉ (m.filter (fun p => isArtifactTy p.2)).map Prod.fst) :
    (insertSorted m k (Ty.execution t)).filter (fun p => isArtifactTy p.2) =
      m.filter (fun p => isArtifactTy p.2) := by
  induction m with
  | nil =>
    simp only [insertSorted]
    rw [List.filter_cons_of_neg (by simp [isArtifactTy])]
  | cons q rest ih =>
    obtain ⟨k1, v1⟩ := q
    simp only [insertSorted]
    split
    · rw [List.filter_cons_of_neg (by simp [isArtifactTy])]
    · split
      · next h2 =>
        subst h2
        rw [List.filter_cons_of_neg (by simp [isArtifactTy])]
        cases v1 with
        | artifact ta =>
          exfalso
          apply hk
          rw [List.filter_cons_of_pos (by simp [isArtifactTy])]
          exact List.mem_map.mpr ⟨(k, Ty.artifact ta), List.mem_cons_self _ _, rfl⟩
        | execution te =>
          rw [List.filter_cons_of_neg (by simp [isArtifactTy])]
      · cases hv : isArtifactTy v1 with
        | true =>
          rw [List.filter_cons_of_pos (by simp [hv]), List.filter_cons_of_pos (by simp [hv])]
          have hk2 : k ∉ (rest.filter (fun p => isArtifactTy p.2)).map Prod.fst := by
            intro hc
            apply hk
            rw [List.filter_cons_of_pos (by simp [hv])]
            exact List.mem_cons_of_mem _ hc
          rw [ih hk2]
        | false =>
          rw [List.filter_cons_of_neg (by simp [hv]),
            List.filter_cons_of_neg (by simp [hv])]
          apply ih
          intro hc
          apply hk
          rw [List.filter_cons_of_neg (by simp [hv])]
          exact hc

theorem artifact_filter_extendSorted (ts : List (Int × Ty)) (m : List (Int × Ty))
    (hexec : ∀ q ∈ ts, isArtifactTy q.2 = false)
    (hkeys : ∀ q ∈ ts, q.1 ∉ (m.filter (fun p => isArtifactTy p.2)).map Prod.fst) :
    (extendSorted m ts).filter (fun p => isArtifactTy p.2) =
      m.filter (fun p => isArtifactTy p.2) := by
  induction ts generalizing m with
  | nil => rfl
  | cons q rest ih =>
    obtain ⟨k, v⟩ := q
    cases v with
    | artifact ta =>
      exact absurd (hexec (k, Ty.artifact ta) (List.mem_cons_self _ _)) (by simp [isArtifactTy])
    | execution te =>
      have hstep := artifact_filter_insert_exec m k te
        (hkeys (k, Ty.execution te) (List.mem_cons_self _ _))
      show (extendSorted (insertSorted m k (Ty.execution te)) rest).filter _ = _
      rw [ih (insertSorted m k (Ty.execution te))
        (fun q hq => hexec q (List.mem_cons_of_mem _ hq))
        (fun q hq => by rw [hstep]; exact hkeys q (List.mem_cons_of_mem _ hq)), hstep]

theorem artifactTypeKeys_eq_filter (m : List (Int × Ty)) :
    artifactTypeKeys m = (m.filter (fun p => isArtifactTy p.2)).map Prod.fst := by
  induction m with
  | nil => rfl
  | cons p rest ih =>
    obtain ⟨k, v⟩ := p
    cases v with
    | artifact ta =>
      show k :: artifactTypeKeys rest = _
      rw [List.filter_cons_of_pos rfl, List.map_cons, ih]
    | execution te =>
      show artifactTypeKeys rest = _
      rw [List.filter_cons_of_neg (by simp [isArtifactTy]), ih]

theorem executionTypeKeys_eq_filter (m : List (Int × Ty)) :
    executionTypeKeys m = (m.filter (fun p => !isArtifactTy p.2)).map Prod.fst := by
  induction m with
  | nil => rfl
  | cons p rest ih =>
    obtain ⟨k, v⟩ := p
    cases v with
    | artifact ta =>
      show executionTypeKeys rest = _
      rw [List.filter_cons_of_neg (by simp [isArtifactTy]), ih]
    | execution te =>
      show k :: executionTypeKeys rest = _
      rw [List.filter_cons_of_pos (by simp [isArtifactTy]), List.map_cons, ih]

theorem graphTypes_artifact_entries (store : MetadataStore) (nodes : NodeMap)
    (hdisj : ∀ a ∈ store.artifact_types, ∀ r ∈ store.execution_types, a.id ≠ r.id) :
    (graphTypes store nodes).filter (fun p => isArtifactTy p.2) =
      artifactTypesMap store nodes := by
  unfold graphTypes
  rw [artifact_filter_extendSorted]
  · exact List.filter_eq_self.mpr (artifactTypesMap_all_artifact store nodes)
  · intro q hq
    obtain ⟨t, ht, rfl⟩ := List.mem_map.mp hq
    rfl
  · intro q hq
    obtain ⟨t, ht, rfl⟩ := List.mem_map.mp hq
    intro hc
    rw [List.filter_eq_self.mpr (artifactTypesMap_all_artifact store nodes)] at hc
    obtain ⟨a, ha, haid⟩ := artifactTypesMap_keys_sub store nodes _ hc
    exact hdisj a ha t (List.mem_filter.mp ht).1 haid

theorem keys_split (m : List (Int × Ty)) (k : Int) (hk : k ∈ m.map Prod.fst) :
    k ∈ artifactTypeKeys m ∨ k ∈ executionTypeKeys m := by
  obtain ⟨p, hp, rfl⟩ := List.mem_map.mp hk
  cases hv : p.2 with
  | artifact ta =>
    exact Or.inl (List.mem_filterMap.mpr ⟨p, hp, by rw [hv]⟩)
  | execution te =>
    exact Or.inr (List.mem_filterMap.mpr ⟨p, hp, by rw [hv]⟩)

theorem length_filter_partition {α : Type} (p : α → Bool) (l : List α) :
    (l.filter p).length + (l.filter (fun a => !p a)).length = l.length :=
  (List.length_eq_length_filter_add p).symm

theorem graphColors_keys (store : MetadataStore) (nodes : NodeMap)
    (hdisj : ∀ a ∈ store.artifact_types, ∀ r ∈ store.execution_types, a.id ≠ r.id) :
    (graphColors store nodes).map Prod.fst =
      artifactTypeKeys (graphTypes store nodes) ++
        executionTypeKeys (graphTypes store nodes) := by
  have h1 : artifactTypeKeys (graphTypes store nodes) =
      (artifactTypesMap store nodes).map Prod.fst := by
    rw [artifactTypeKeys_eq_filter, graphTypes_artifact_entries store nodes hdisj]
  have hlen1 : (artifactTypeKeys (graphTypes store nodes)).length =
      (artifactTypesMap store nodes).length := by
    rw [h1, List.length_map]
  have hlen2 : (executionTypeKeys (graphTypes store nodes)).length =
      (graphTypes store nodes).length - (artifactTypesMap store nodes).length := by
    rw [executionTypeKeys_eq_filter, List.length_map]
    have hpart := length_filter_partition (fun p => isArtifactTy p.2) (graphTypes store nodes)
    have hart : ((graphTypes store nodes).filter (fun p => isArtifactTy p.2)).length =
        (artifactTypesMap store nodes).length := by
      rw [graphTypes_artifact_entries store nodes hdisj]
    omega
  simp only [graphColors, List.map_append]
  rw [List.map_fst_zip _ _ (by rw [hlen1, gradientTake_length]),
    List.map_fst_zip _ _ (by rw [hlen2, gradientTake_length])]

/-- Totality of the color and type tables: when the store holds a type
record for every requested type id and artifact and execution type ids do
not collide, every node type id is a key of both the type map and the
color table of Graph::new. -/
theorem graph_lookup_cover (store : MetadataStore) (nodes : NodeMap)
    (hdisj : ∀ a ∈ store.artifact_types, ∀ r ∈ store.execution_types, a.id ≠ r.id)
    (hat : ∀ t ∈ requestedArtifactTypeIds nodes, ∃ r ∈ store.artifact_types, r.id = t)
    (het : ∀ t ∈ requestedExecutionTypeIds nodes, ∃ r ∈ store.execution_types, r.id = t) :
    ∀ p ∈ nodes, p.2.type_id ∈ (graphTypes store nodes).map Prod.fst ∧
      p.2.type_id ∈ (graphColors store nodes).map Prod.fst := by
  intro p hp
  cases hn : p.2 with
  | artifact a =>
    have hreq : a.type_id ∈ requestedArtifactTypeIds nodes := by
      refine List.mem_filterMap.mpr ⟨Node.artifact a, ?_, rfl⟩
      rw [← hn]
      exact List.mem_map.mpr ⟨p, hp, rfl⟩
    obtain ⟨r, hr, hrid⟩ := hat _ hreq
    have hkey : a.type_id ∈ (artifactTypesMap store nodes).map Prod.fst := by
      unfold artifactTypesMap
      rw [mem_keys_extendSorted, List.map_map]
      exact Or.inr (List.mem_map.mpr
        ⟨r, List.mem_filter.mpr ⟨hr, List.elem_iff.mpr (by rw [hrid]; exact hreq)⟩, hrid⟩)
    show a.type_id ∈ (graphTypes store nodes).map Prod.fst ∧
      a.type_id ∈ (graphColors store nodes).map Prod.fst
    constructor
    · unfold graphTypes
      rw [mem_keys_extendSorted]
      exact Or.inl hkey
    · rw [graphColors_keys store nodes hdisj, List.mem_append]
      left
      rw [artifactTypeKeys_eq_filter, graphTypes_artifact_entries store nodes hdisj]
      exact hkey
  | execution e =>
    have hreq : e.type_id ∈ requestedExecutionTypeIds nodes := by
      refine List.mem_filterMap.mpr ⟨Node.execution e, ?_, rfl⟩
      rw [← hn]
      exact List.mem_map.mpr ⟨p, hp, rfl⟩
    obtain ⟨r, hr, hrid⟩ := het _ hreq
    have hkey : e.type_id ∈ (graphTypes store nodes).map Prod.fst := by
      unfold graphTypes
      rw [mem_keys_extendSorted, List.map_map]
      exact Or.inr (List.mem_map.mpr
        ⟨r, List.mem_filter.mpr ⟨hr, List.elem_iff.mpr (by rw [hrid]; exact hreq)⟩, hrid⟩)
    have hnotart : e.type_id ∉ artifactTypeKeys (graphTypes store nodes) := by
      rw [artifactTypeKeys_eq_filter, graphTypes_artifact_entries store nodes hdisj]
      intro hc
      obtain ⟨a2, ha2, ha2id⟩ := artifactTypesMap_keys_sub store nodes _ hc
      exact hdisj a2 ha2 r hr (by rw [ha2id, hrid])
    show e.type_id ∈ (graphTypes store nodes).map Prod.fst ∧
      e.type_id ∈ (graphColors store nodes).map Prod.fst
    refine ⟨hkey, ?_⟩
    rw [graphColors_keys store nodes hdisj, List.mem_append]
    rcases keys_split _ _ hkey with h | h
    · exact absurd h hnotart
    · exact Or.inr h

theorem sorted_insertSorted (m : List (Int × Ty)) (k : Int) (v : Ty)
    (h : (m.map Prod.fst).Sorted (· < ·)) :
    ((insertSorted m k v).map Prod.fst).Sorted (· < ·) := by
  induction m with
  | nil => simp [insertSorted]
  | cons p rest ih =>
    obtain ⟨k1, v1⟩ := p
    simp only [List.map_cons, List.sorted_cons] at h
    obtain ⟨h1, h2⟩ := h
    simp only [insertSorted]
    split
    · next hlt =>
      simp only [List.map_cons, List.sorted_cons]
      refine ⟨?_, ?_⟩
      · intro b hb
        rcases List.mem_cons.mp hb with rfl | hb2
        · exact hlt
        · exact lt_trans hlt (h1 b hb2)
      · exact ⟨h1, h2⟩
    · split
      · next h2eq =>
        subst h2eq
        simp only [List.map_cons, List.sorted_cons]
        exact ⟨h1, h2⟩
      · next hnlt hne =>
        simp only [List.map_cons, List.sorted_cons]
        refine ⟨?_, ih h2⟩
        intro b hb
        rw [mem_keys_insertSorted] at hb
        rcases hb with rfl | hb2
        · omega
        · exact h1 b hb2

theorem sorted_extendSorted (ts : List (Int × Ty)) (m : List (Int × Ty))
    (h : (m.map Prod.fst).Sorted (· < ·)) :
    ((extendSorted m ts).map Prod.fst).Sorted (· < ·) := by
  induction ts generalizing m with
  | nil => exact h
  | cons q rest ih =>
    exact ih _ (sorted_insertSorted m q.1 q.2 h)

theorem graphTypes_sorted (store : MetadataStore) (nodes : NodeMap) :
    ((graphTypes store nodes).map Prod.fst).Sorted (· < ·) :=
  sorted_extendSorted _ _ (sorted_extendSorted _ [] (by simp))

theorem graphColors_det (store : MetadataStore) (nodes1 nodes2 : NodeMap)
    (ha : ∀ t : Int, t ∈ requestedArtifactTypeIds nodes1 ↔
      t ∈ requestedArtifactTypeIds nodes2)
    (he : ∀ t : Int, t ∈ requestedExecutionTypeIds nodes1 ↔
      t ∈ requestedExecutionTypeIds nodes2) :
    graphTypes store nodes1 = graphTypes store nodes2 ∧
      graphColors store nodes1 = graphColors store nodes2 := by
  have hfa : store.artifact_types_by_ids (requestedArtifactTypeIds nodes1) =
      store.artifact_types_by_ids (requestedArtifactTypeIds nodes2) := by
    unfold MetadataStore.artifact_types_by_ids
    exact List.filter_congr (fun t _ => list_contains_congr ha t.id)
  have hfe : store.execution_types_by_ids (requestedExecutionTypeIds nodes1) =
      store.execution_types_by_ids (requestedExecutionTypeIds nodes2) := by
    unfold MetadataStore.execution_types_by_ids
    exact List.filter_congr (fun t _ => list_contains_congr he t.id)
  have h1 : artifactTypesMap store nodes1 = artifactTypesMap store nodes2 := by
    unfold artifactTypesMap
    rw [hfa]
  have h2 : graphTypes store nodes1 = graphTypes store nodes2 := by
    unfold graphTypes
    rw [h1, hfe]
  exact ⟨h2, by simp only [graphColors, h1, h2]⟩

/-- A second node map presenting the same type-id sets as cyclicNodes in a
different discovery order and with a duplicated artifact type. -/
def shuffledNodes : NodeMap :=
  [(NodeId.execution 10, Node.execution recE10), (NodeId.artifact 2, Node.artifact recA2),
   (NodeId.artifact 1, Node.artifact recA1)]

/-- C8: the TypeId -> Color assignment of Graph::new is a function of the
discovered type-id sets alone — any discovery order (and multiplicity) of
the node map yields the same table — with the type map iterated in
ascending type-id order, artifact type ids zipped against
Gradient::take(artifact type count) and execution type ids against an
independent Gradient::take(execution type count), each sample an evenly
spaced, 8-bit quantized stop of the white-to-mid-gray gradient. -/
theorem C8_color_determinism :
    (∀ (store : MetadataStore) (nodes1 nodes2 : NodeMap),
      (∀ t : Int, t ∈ requestedArtifactTypeIds nodes1 ↔
        t ∈ requestedArtifactTypeIds nodes2) →
      (∀ t : Int, t ∈ requestedExecutionTypeIds nodes1 ↔
        t ∈ requestedExecutionTypeIds nodes2) →
      graphColors store nodes1 = graphColors store nodes2) ∧
    (∀ (store : MetadataStore) (nodes : NodeMap),
      ((graphTypes store nodes).map Prod.fst).Sorted (· < ·)) ∧
    (∀ n : Nat, (gradientTake n).length = n ∧
      gradientTake n = (List.range n).map (gradientColorAt n)) := by
  refine ⟨?_, graphTypes_sorted, fun n => ⟨gradientTake_length n, rfl⟩⟩
  intro store nodes1 nodes2 ha he
  exact (graphColors_det store nodes1 nodes2 ha he).2

theorem C8_witness :
    graphColors cyclicStore cyclicNodes = graphColors cyclicStore shuffledNodes :=
  C8_color_determinism.1 cyclicStore cyclicNodes shuffledNodes
    (by
      intro t
      simp [cyclicNodes, shuffledNodes, requestedArtifactTypeIds, recA1, recA2, recE10])
    (by
      intro t
      simp [cyclicNodes, shuffledNodes, requestedExecutionTypeIds, recA1, recA2, recE10])

/-- C10: for every graph produced by a successful discovery run over a
store that holds a type record for every requested type id (with artifact
and execution type-id spaces disjoint, as they are in a real metadata
store), all unchecked lookups of Graph::generate are defined: both
endpoints of every edge are keys of the node map, and the type_id of
every node is a key of the type map (tooltip lookup) and of the color
table (fillcolor lookup). -/
theorem C10_generate_lookups_defined
    (adjacent : MetadataStore → NodeId → List Edge) (store : MetadataStore)
    (origin : NodeId) (ns : NodeMap) (es : List Edge)
    (hrun : traverse adjacent store [origin] [] [] = Except.ok (ns, es))
    (hdisj : ∀ a ∈ store.artifact_types, ∀ r ∈ store.execution_types, a.id ≠ r.id)
    (hat : ∀ t ∈ requestedArtifactTypeIds ns, ∃ r ∈ store.artifact_types, r.id = t)
    (het : ∀ t ∈ requestedExecutionTypeIds ns, ∃ r ∈ store.execution_types, r.id = t) :
    (∀ e ∈ es, e.from_node ∈ ns.map Prod.fst ∧ e.to_node ∈ ns.map Prod.fst) ∧
    (∀ p ∈ ns, p.2.type_id ∈ (graphTypes store ns).map Prod.fst ∧
      p.2.type_id ∈ (graphColors store ns).map Prod.fst) :=
  ⟨traverse_closed adjacent store [origin] [] [] ns es hrun
      (fun e he => absurd he (by simp)),
    graph_lookup_cover store ns hdisj hat het⟩

theorem C10_witness :
    (Edge.mk inEv).from_node ∈ cyclicNodes.map Prod.fst ∧
      (Node.artifact recA1).type_id ∈
        (graphColors cyclicStore cyclicNodes).map Prod.fst := by
  have h := C10_generate_lookups_defined get_edges_derived cyclicStore
    (NodeId.artifact 1) cyclicNodes cyclicEdges derived_run_cyclic
    (by decide) (by decide) (by decide)
  exact ⟨(h.1 (Edge.mk inEv) (by decide)).1,
    (h.2 (NodeId.artifact 1, Node.artifact recA1) (by decide)).2⟩

end Mlmdquery
